import Mathlib

/-!
Verification development for the CerebrasChat client.

Text is modelled as `List Char`.  JavaScript string operations used by the
source (`trim`, `split('\n')`, `startsWith`, `substring`, `includes`,
`toLowerCase`, regex replacement with the `gi` flags) are embedded as
executable functions on `List Char` below, and the streaming decode loop of
`sendMessageToCerebrasStream`, the `<think>`-tag filter, the request-payload
builder, the error classifier and the session-store operations of the app
component are translated from the source.
-/

/-- ASCII case folding, the canonicalisation used by the `i` regex flag and by
`toLowerCase` for the ASCII patterns the source matches against. -/
def lowerChar (c : Char) : Char :=
  if 'A' ≤ c ∧ c ≤ 'Z' then Char.ofNat (c.toNat + 32) else c

/-- Whitespace recognised by JavaScript `String.prototype.trim` (the common
ASCII part, which is all the source's inputs use). -/
def isJsSpace (c : Char) : Bool :=
  c == ' ' || c == '\t' || c == '\n' || c == '\r' || c == '\x0b' || c == '\x0c'

/-- JavaScript `s.trim()`. -/
def jsTrim (s : List Char) : List Char :=
  ((s.dropWhile isJsSpace).reverse.dropWhile isJsSpace).reverse

/-- JavaScript `s.includes(pat)`. -/
def jsIncludes : List Char → List Char → Bool
  | [], pat => pat.isPrefixOf ([] : List Char)
  | c :: cs, pat => pat.isPrefixOf (c :: cs) || jsIncludes cs pat

/-- Case-insensitive literal match: if `pat` is a prefix of `s` up to ASCII
case, return the remaining suffix of `s`. -/
def matchCI : List Char → List Char → Option (List Char)
  | [], s => some s
  | _ :: _, [] => none
  | p :: ps, c :: cs => if lowerChar c = lowerChar p then matchCI ps cs else none

/-- The literal opening tag of the reasoning sub-format. -/
def thinkOpenTok : List Char := "<think>".toList

/-- The literal closing tag of the reasoning sub-format. -/
def thinkCloseTok : List Char := "</think>".toList

/-- Find the nearest case-insensitive occurrence of `</think>` and return the
suffix after it (the lazy `[\s\S]*?<\/think>` part of the first regex). -/
def findClose : List Char → Option (List Char)
  | [] => none
  | c :: cs =>
    match matchCI thinkCloseTok (c :: cs) with
    | some r => some r
    | none => findClose cs

/-- One global pass of `replace(/<think>[\s\S]*?<\/think>/gi, '')`, written
with explicit fuel (any fuel at least the length of the input gives the
regex semantics; smaller fuel returns the rest unchanged). -/
def stripClosedFuel : Nat → List Char → List Char
  | 0, s => s
  | _ + 1, [] => []
  | fuel + 1, c :: cs =>
    match matchCI thinkOpenTok (c :: cs) with
    | some rest =>
      match findClose rest with
      | some rest2 => stripClosedFuel fuel rest2
      | none => c :: stripClosedFuel fuel cs
    | none => c :: stripClosedFuel fuel cs

/-- `replace(/<think>[\s\S]*?<\/think>/gi, '')`: remove every well-formed
`<think>...</think>` span, scanning left to right, lazily. -/
def stripClosed (s : List Char) : List Char := stripClosedFuel s.length s

/-- `replace(/<think>[\s\S]*/gi, '')`: remove a trailing unterminated
`<think>...` span (everything from the first remaining `<think>` on). -/
def stripOpen : List Char → List Char
  | [] => []
  | c :: cs =>
    match matchCI thinkOpenTok (c :: cs) with
    | some _ => []
    | none => c :: stripOpen cs

/-- Whether a case-insensitive `<think>` occurs anywhere in the text. -/
def containsThink : List Char → Bool
  | [] => false
  | c :: cs => (matchCI thinkOpenTok (c :: cs)).isSome || containsThink cs

/-- `removeThinkingTags` from `services/cerebrasService.ts`: strip closed
spans, then a trailing open span, then trim. -/
def removeThinkingTags (text : List Char) : List Char :=
  jsTrim (stripOpen (stripClosed text))

/-- JavaScript `buffer.split('\n')`: the list of newline-separated parts,
with empty parts preserved (one more part than there are newlines). -/
def splitOnNl : List Char → List (List Char)
  | [] => [[]]
  | c :: cs =>
    if c = '\n' then [] :: splitOnNl cs
    else
      match splitOnNl cs with
      | [] => [[c]]
      | p :: ps => (c :: p) :: ps

/-- Last part of a split (the trailing unterminated fragment). -/
def lastPart : List (List Char) → List Char
  | [] => []
  | [x] => x
  | _ :: x :: xs => lastPart (x :: xs)

/-- The `data: ` payload marker checked by `line.startsWith('data: ')`. -/
def dataMarker : List Char := "data: ".toList

/-- The `[DONE]` sentinel. -/
def doneToken : List Char := "[DONE]".toList

/-- State of the streaming read loop of `sendMessageToCerebrasStream`:
the partial-line buffer, the raw accumulator `fullResponseText`, the list of
arguments passed to `onChunk` so far, and whether the `[DONE]` sentinel made
the function return. -/
structure StreamState where
  buffer : List Char
  full : List Char
  chunks : List (List Char)
  done : Bool
deriving DecidableEq

/-- Initial loop state (`fullResponseText = ""`, `buffer = ""`). -/
def initState : StreamState := ⟨[], [], [], false⟩

/-- Body of the `for` loop over complete lines: trim the line, require the
`data: ` marker, return on the `[DONE]` sentinel, otherwise parse the payload
(`parse` stands for `JSON.parse` plus the `choices[0].delta.content`
extraction; `none` covers malformed payloads, which are skipped) and, when
the content is truthy, append it and emit the filtered accumulator. -/
def processLine (parse : List Char → Option (List Char)) (st : StreamState)
    (rawLine : List Char) : StreamState :=
  let line := jsTrim rawLine
  if dataMarker.isPrefixOf line then
    let jsonData := line.drop 6
    if jsTrim jsonData = doneToken then { st with done := true }
    else
      match parse jsonData with
      | some content =>
        if content = [] then st
        else
          let full := st.full ++ content
          { st with full := full, chunks := st.chunks ++ [removeThinkingTags full] }
      | none => st
  else st

/-- The `for` loop over all complete lines of the current buffer; the `done`
flag models the early `return` on the sentinel, which skips the rest. -/
def processLines (parse : List Char → Option (List Char)) :
    StreamState → List (List Char) → StreamState
  | st, [] => st
  | st, l :: ls =>
    if st.done then st else processLines parse (processLine parse st l) ls

/-- One iteration of the read loop: append the decoded window to the buffer,
split on newlines, process every complete line, and retain the trailing
fragment as the new buffer.  A state that already returned is left alone. -/
def feed (parse : List Char → Option (List Char)) (st : StreamState)
    (input : List Char) : StreamState :=
  if st.done then st
  else
    let lines := splitOnNl (st.buffer ++ input)
    let st1 := processLines parse { st with buffer := [] } lines.dropLast
    if st1.done then st1 else { st1 with buffer := lastPart lines }

/-- The value the function returns on sentinel or natural stream end. -/
def streamResult (st : StreamState) : List Char := removeThinkingTags st.full

/-- A trimmed line is a sentinel line exactly when the loop's two tests pass
on it. -/
def isDoneLine (rawLine : List Char) : Bool :=
  dataMarker.isPrefixOf (jsTrim rawLine) && jsTrim ((jsTrim rawLine).drop 6) = doneToken

/-- Message roles from `types.ts`. -/
inductive MessageRole where
  | user
  | model
  | system
  | error
deriving DecidableEq

/-- File attachments from `types.ts`. -/
structure FileAttachment where
  name : List Char
  mimeType : List Char
  content : List Char
deriving DecidableEq

/-- Chat messages from `types.ts` (ids and timestamps are modelled as
naturals; the optional flags default to their absent values). -/
structure Message where
  id : Nat
  role : MessageRole
  text : List Char
  timestamp : Nat
  fileAttachment : Option FileAttachment := none
  isLoading : Bool := false
deriving DecidableEq

/-- Roles of the outgoing Cerebras payload. -/
inductive CRole where
  | system
  | user
  | assistant
deriving DecidableEq

/-- One `{role, content}` entry of the outgoing payload. -/
structure CerebrasChatMessage where
  role : CRole
  content : List Char
deriving DecidableEq

/-- `transformMessagesForCerebras`: the model role maps to `assistant`,
every other role maps to `user`; content is the message text. -/
def transformMessagesForCerebras (messages : List Message) : List CerebrasChatMessage :=
  messages.map fun msg =>
    ⟨if msg.role = MessageRole.model then CRole.assistant else CRole.user, msg.text⟩

/-- Modelled from the spec: the system-instruction text lives in
`constants.tsx`, which is not among the provided sources; its exact content
is immaterial to the claims, which only use that it is sent as the single
leading system message. -/
def DEFAULT_SYSTEM_PROMPT : List Char := "SYSTEM_PROMPT".toList

/-- Modelled from the spec: the environment-variable name from
`constants.tsx` (the repository README names it `CEREBRAS_API_KEY`); it only
appears inside the authorization error text. -/
def CEREBRAS_API_KEY_ENV_VAR : List Char := "CEREBRAS_API_KEY".toList

/-- The `requestContent` construction of `sendMessageToCerebrasStream`:
the user input, prefixed by a header describing the attachment when one is
present. -/
def buildRequestContent (userInput : List Char) (fileAttachment : Option FileAttachment) :
    List Char :=
  match fileAttachment with
  | none => userInput
  | some fa =>
    if ("image/".toList).isPrefixOf fa.mimeType then
      "Прикреплен файл изображения: ".toList ++ fa.name ++ " (Тип: ".toList ++ fa.mimeType
        ++ ").\nСодержимое (base64):\n".toList ++ fa.content ++ "\n\n---\n\n".toList ++ userInput
    else if ("text/".toList).isPrefixOf fa.mimeType then
      "Содержимое файла ".toList ++ fa.name ++ ":\n".toList ++ fa.content
        ++ "\n\n---\n\n".toList ++ userInput
    else
      "Прикреплен файл: ".toList ++ fa.name ++ " (Тип: ".toList ++ fa.mimeType
        ++ "). Учти его содержимое при ответе, если это релевантно.\n\n---\n\n".toList ++ userInput

/-- `messagesPayload`: system instruction, transformed history, final user
message. -/
def messagesPayload (history : List Message) (requestContent : List Char) :
    List CerebrasChatMessage :=
  ⟨CRole.system, DEFAULT_SYSTEM_PROMPT⟩ ::
    (transformMessagesForCerebras history ++ [⟨CRole.user, requestContent⟩])

/-- The error text thrown for a non-ok response:
`Ошибка API Cerebras: ${response.status} ${errorData.message}`. -/
def httpFailText (status : Nat) (detail : List Char) : List Char :=
  "Ошибка API Cerebras: ".toList ++ (Nat.repr status).toList ++ " ".toList ++ detail

/-- The `catch` block's classification of a thrown error message. -/
def classifyError (msg : List Char) : List Char :=
  if jsIncludes msg ("Failed to fetch".toList) then
    "Не удалось подключиться к API Cerebras. Проверьте ваше интернет-соединение.".toList
  else if jsIncludes (msg.map lowerChar) ("unauthorized".toList)
      || jsIncludes msg ("401".toList) then
    "Ошибка авторизации Cerebras AI. Проверьте ваш ".toList ++ CEREBRAS_API_KEY_ENV_VAR
      ++ ".".toList
  else if jsIncludes (msg.map lowerChar) ("quota".toList) then
    "Превышена квота API Cerebras. Пожалуйста, проверьте ваш биллинг или лимиты.".toList
  else if msg = [] then "Произошла ошибка при общении с ИИ.".toList
  else "Произошла ошибка при общении с ИИ. Детали: ".toList ++ msg

/-- Transport-level outcome of the `fetch` call and the subsequent reads:
the promise rejects, the response is non-ok, the body streams to completion
as a list of decoded windows, or the reads fail partway with an error. -/
inductive FetchResult where
  | networkFailure : List Char → FetchResult
  | httpError : Nat → List Char → FetchResult
  | ok : List (List Char) → FetchResult
  | transportError : List (List Char) → List Char → FetchResult

/-- Observable outcome of one `sendMessageToCerebrasStream` call: the
`onChunk` arguments in order, the `onError` argument if it was invoked, and
the returned string. -/
structure SendOutcome where
  chunks : List (List Char)
  errorCall : Option (List Char)
  result : List Char
deriving DecidableEq

/-- `sendMessageToCerebrasStream` after initialization, as a function of the
transport outcome: failures are caught, classified and reported through
`onError` with an empty return; a successful stream is decoded by the read
loop and the filtered accumulator is returned. -/
def sendMessageToCerebrasStream (parse : List Char → Option (List Char)) :
    FetchResult → SendOutcome
  | FetchResult.networkFailure msg => ⟨[], some (classifyError msg), []⟩
  | FetchResult.httpError status detail =>
      ⟨[], some (classifyError (httpFailText status detail)), []⟩
  | FetchResult.ok windows =>
      let st := List.foldl (feed parse) initState windows
      ⟨st.chunks, none, streamResult st⟩
  | FetchResult.transportError windows msg =>
      let st := List.foldl (feed parse) initState windows
      if st.done then ⟨st.chunks, none, streamResult st⟩
      else ⟨st.chunks, some (classifyError msg), []⟩

/-- Chat sessions from `types.ts`. -/
structure ChatSession where
  id : Nat
  title : List Char
  messages : List Message
  createdAt : Nat
deriving DecidableEq

/-- The store state held by the app component: the session list in display
order, the active session id (`null` as `none`), and the banner error slot. -/
structure AppState where
  sessions : List ChatSession
  activeSessionId : Option Nat
  errorMessage : Option (List Char)
deriving DecidableEq

/-- `createNewSession`: prepend a fresh session and make it active.  The
default title counts the sessions of the render the callback was created in
(`renderSessions`), while the prepend applies to the current state — the two
differ when `createNewSession` runs inside `deleteSession`. -/
def createNewSession (renderSessions : List ChatSession) (freshId now : Nat)
    (st : AppState) : AppState :=
  { st with
    errorMessage := none,
    sessions :=
      ⟨freshId, "Новый чат ".toList ++ (Nat.repr (renderSessions.length + 1)).toList, [], now⟩
        :: st.sessions,
    activeSessionId := some freshId }

/-- `switchSession`: clear an API error banner, then set the active id —
unconditionally, with no existence check. -/
def switchSession (st : AppState) (sessionId : Nat) : AppState :=
  let st1 :=
    match st.errorMessage with
    | some m => if jsIncludes m ("API".toList) then { st with errorMessage := none } else st
    | none => st
  { st1 with activeSessionId := some sessionId }

/-- JavaScript `Array.prototype.findIndex`: index of the first hit, `-1`
when there is none. -/
def findIndexJs (p : ChatSession → Bool) : List ChatSession → Int
  | [] => -1
  | s :: ss =>
    if p s then 0
    else
      let r := findIndexJs p ss
      if r = -1 then -1 else r + 1

/-- The replacement-active computation of `deleteSession`: prefer the
session just before the deleted one in the original order, else the one just
after it, else the first remaining session, else `null`. -/
def newActiveAfterDelete (original : List ChatSession) (sessionId : Nat)
    (remaining : List ChatSession) : Option Nat :=
  let idx := findIndexJs (fun s => s.id == sessionId) original
  let prev : Option ChatSession :=
    if 0 < idx then original.get? (idx - 1).toNat else none
  let next : Option ChatSession := original.get? (idx + 1).toNat
  match prev with
  | some s => some s.id
  | none =>
    match next with
    | some s => some s.id
    | none => remaining.head?.map (fun s => s.id)

/-- `deleteSession`: drop the session; if it was active, pick a replacement
from what remains, or auto-create a fresh session when nothing remains.
`freshId`/`now` stand for the `Date.now()` values of the auto-create path. -/
def deleteSession (st : AppState) (sessionId freshId now : Nat) : AppState :=
  let remaining := st.sessions.filter (fun s => s.id != sessionId)
  let st1 := { st with sessions := remaining }
  if st.activeSessionId = some sessionId then
    if 0 < remaining.length then
      { st1 with activeSessionId := newActiveAfterDelete st.sessions sessionId remaining }
    else createNewSession st.sessions freshId now st1
  else st1

/-- `renameSession`: set the trimmed title, keeping the old title when the
trimmed text is empty. -/
def renameSession (st : AppState) (sessionId : Nat) (newTitle : List Char) : AppState :=
  { st with
    sessions := st.sessions.map fun s =>
      if s.id = sessionId then
        { s with title := if jsTrim newTitle = [] then s.title else jsTrim newTitle }
      else s }

/-- The history computation of `handleSendMessage`: the session snapshot
taken before the two appends, with its last element sliced off and non
user/model roles filtered out. -/
def historyForApi (priorMessages : List Message) : List Message :=
  (priorMessages.dropLast).filter fun m =>
    m.role == MessageRole.user || m.role == MessageRole.model

/-- The title derived in the `finally` block:
`text.trim().substring(0, 30)` plus an ellipsis when the trimmed text is
longer than 30 characters. -/
def deriveTitle (text : List Char) : List Char :=
  (jsTrim text).take 30 ++ (if 30 < (jsTrim text).length then "...".toList else [])

/-- The auto-rename step of the `finally` block: look the active session up
in the stale render snapshot (`staleSessions`), and rename when that stale
session has at most two messages and the sent text is non-blank. -/
def autoRenameAfterSend (staleSessions : List ChatSession) (activeId : Nat)
    (text : List Char) (st : AppState) : AppState :=
  match staleSessions.find? (fun s => s.id == activeId) with
  | some cs =>
    if cs.messages.length ≤ 2 ∧ jsTrim text ≠ [] then
      renameSession st activeId (deriveTitle text)
    else st
  | none => st

/-- Sample data for the auto-rename evidence: a session that already holds
one completed exchange, and the same session after a second send appended a
user message and the assistant reply. -/
def sampleStaleSession : ChatSession :=
  ⟨1, "прежний заголовок".toList,
    [⟨1, MessageRole.user, "q".toList, 0, none, false⟩,
      ⟨2, MessageRole.model, "r".toList, 0, none, false⟩], 0⟩

/-- The state after the second send completed: the session now has four
messages. -/
def samplePostSendState : AppState :=
  ⟨[⟨1, "прежний заголовок".toList,
      [⟨1, MessageRole.user, "q".toList, 0, none, false⟩,
        ⟨2, MessageRole.model, "r".toList, 0, none, false⟩,
        ⟨3, MessageRole.user, "b".toList, 0, none, false⟩,
        ⟨4, MessageRole.model, "s".toList, 0, none, false⟩], 0⟩], some 1, none⟩

/-- A case-insensitive match survives appending more text on the right. -/
theorem matchCI_append {p t u : List Char} (r : List Char) (h : matchCI p t = some u) :
    matchCI p (t ++ r) = some (u ++ r) := by
  induction p generalizing t u with
  | nil => simp [matchCI] at h; subst h; simp [matchCI]
  | cons a ps ih =>
    cases t with
    | nil => simp [matchCI] at h
    | cons c cs =>
      simp only [matchCI, List.cons_append] at h ⊢
      by_cases hc : lowerChar c = lowerChar a
      · simp only [hc, if_pos rfl] at h ⊢
        exact ih h
      · simp [hc] at h

/-- `stripOpen` returns a prefix of its input. -/
theorem stripOpen_prefix (s : List Char) : ∃ r, stripOpen s ++ r = s := by
  induction s with
  | nil => exact ⟨[], rfl⟩
  | cons c cs ih =>
    simp only [stripOpen]
    cases h : matchCI thinkOpenTok (c :: cs) with
    | some r => exact ⟨c :: cs, rfl⟩
    | none =>
      obtain ⟨r, hr⟩ := ih
      exact ⟨r, by simp [hr]⟩

/-- If an occurrence is found in a prefix, one is found in the whole list. -/
theorem containsThink_append_left {t : List Char} (r : List Char)
    (h : containsThink t = true) : containsThink (t ++ r) = true := by
  induction t with
  | nil => simp [containsThink] at h
  | cons c cs ih =>
    simp only [containsThink, Bool.or_eq_true] at h ⊢
    rcases h with h | h
    · left
      rw [Option.isSome_iff_exists] at h
      obtain ⟨u, hu⟩ := h
      have h2 : matchCI thinkOpenTok ((c :: cs) ++ r) = some (u ++ r) := matchCI_append r hu
      rw [List.cons_append] at h2
      show (matchCI thinkOpenTok (c :: (cs ++ r))).isSome = true
      rw [h2]
      rfl
    · right
      exact ih h

/-- If an occurrence is found in a suffix, one is found in the whole list. -/
theorem containsThink_append_right {t : List Char} (r : List Char)
    (h : containsThink t = true) : containsThink (r ++ t) = true := by
  induction r with
  | nil => simpa using h
  | cons c cs ih =>
    simp only [List.cons_append, containsThink, Bool.or_eq_true]
    right
    exact ih

/-- No occurrence survives `stripOpen`. -/
theorem containsThink_stripOpen (s : List Char) : containsThink (stripOpen s) = false := by
  induction s with
  | nil => rfl
  | cons c cs ih =>
    simp only [stripOpen]
    cases h : matchCI thinkOpenTok (c :: cs) with
    | some r => rfl
    | none =>
      simp only [containsThink, Bool.or_eq_false_iff]
      refine ⟨?_, ih⟩
      by_contra hs
      rw [Bool.not_eq_false, Option.isSome_iff_exists] at hs
      obtain ⟨u, hu⟩ := hs
      obtain ⟨r, hr⟩ := stripOpen_prefix cs
      have : matchCI thinkOpenTok ((c :: stripOpen cs) ++ r) = some (u ++ r) :=
        matchCI_append r hu
      rw [List.cons_append, hr] at this
      rw [this] at h
      exact Option.noConfusion h

/-- No occurrence in a list means none in any prefix of it. -/
theorem containsThink_false_of_prefix {t r : List Char}
    (h : containsThink (t ++ r) = false) : containsThink t = false := by
  by_contra hc
  rw [Bool.not_eq_false] at hc
  rw [containsThink_append_left r hc] at h
  exact Bool.noConfusion h

/-- No occurrence in a list means none in any suffix of it. -/
theorem containsThink_false_of_suffix {t r : List Char}
    (h : containsThink (r ++ t) = false) : containsThink t = false := by
  by_contra hc
  rw [Bool.not_eq_false] at hc
  rw [containsThink_append_right r hc] at h
  exact Bool.noConfusion h

/-- `dropWhile` keeps a suffix. -/
theorem dropWhile_suffix_ex (p : Char → Bool) (s : List Char) :
    ∃ r, r ++ s.dropWhile p = s := by
  induction s with
  | nil => exact ⟨[], rfl⟩
  | cons c cs ih =>
    by_cases h : p c
    · obtain ⟨r, hr⟩ := ih
      exact ⟨c :: r, by simp [List.dropWhile, h, hr]⟩
    · exact ⟨[], by simp [List.dropWhile, h]⟩

/-- Trimming cannot introduce an occurrence. -/
theorem containsThink_jsTrim {s : List Char} (h : containsThink s = false) :
    containsThink (jsTrim s) = false := by
  obtain ⟨r1, hr1⟩ := dropWhile_suffix_ex isJsSpace s
  have hu : containsThink (s.dropWhile isJsSpace) = false := by
    rw [← hr1] at h
    exact containsThink_false_of_suffix h
  obtain ⟨r2, hr2⟩ := dropWhile_suffix_ex isJsSpace (s.dropWhile isJsSpace).reverse
  have hsplit :
      ((s.dropWhile isJsSpace).reverse.dropWhile isJsSpace).reverse ++ r2.reverse
        = s.dropWhile isJsSpace := by
    have := congrArg List.reverse hr2
    simpa using this
  rw [jsTrim]
  rw [← hsplit] at hu
  exact containsThink_false_of_prefix hu

/-- With no occurrence present, `stripOpen` is the identity. -/
theorem stripOpen_of_no_think {s : List Char} (h : containsThink s = false) :
    stripOpen s = s := by
  induction s with
  | nil => rfl
  | cons c cs ih =>
    simp only [containsThink, Bool.or_eq_false_iff] at h
    obtain ⟨h1, h2⟩ := h
    simp only [stripOpen]
    cases hm : matchCI thinkOpenTok (c :: cs) with
    | some r => rw [hm] at h1; exact Bool.noConfusion h1
    | none => rw [ih h2]

/-- With no occurrence present, the fueled closed-span pass is the identity
for every amount of fuel. -/
theorem stripClosedFuel_of_no_think {s : List Char} (fuel : Nat)
    (h : containsThink s = false) : stripClosedFuel fuel s = s := by
  induction fuel generalizing s with
  | zero => rfl
  | succ n ih =>
    cases s with
    | nil => rfl
    | cons c cs =>
      simp only [containsThink, Bool.or_eq_false_iff] at h
      obtain ⟨h1, h2⟩ := h
      simp only [stripClosedFuel]
      cases hm : matchCI thinkOpenTok (c :: cs) with
      | some r => rw [hm] at h1; exact Bool.noConfusion h1
      | none => rw [ih h2]

/-- With no occurrence present, `stripClosed` is the identity. -/
theorem stripClosed_of_no_think {s : List Char} (h : containsThink s = false) :
    stripClosed s = s :=
  stripClosedFuel_of_no_think s.length h

/-- Dropping a satisfied prefix twice is the same as dropping it once. -/
theorem dropWhile_idem (p : Char → Bool) (l : List Char) :
    (l.dropWhile p).dropWhile p = l.dropWhile p := by
  induction l with
  | nil => rfl
  | cons c cs ih =>
    by_cases h : p c
    · simp [List.dropWhile, h, ih]
    · simp [List.dropWhile, h]

/-- Dropping a leading segment can only shorten the list. -/
theorem dropWhile_length_le (p : Char → Bool) (l : List Char) :
    (l.dropWhile p).length ≤ l.length := by
  induction l with
  | nil => simp
  | cons c cs ih =>
    by_cases h : p c
    · simp only [List.dropWhile, h]
      exact Nat.le_trans ih (Nat.le_succ _)
    · simp [List.dropWhile, h]

/-- A prefix of a list with no satisfied leading segment has none either. -/
theorem dropWhile_eq_self_of_prefix {p : Char → Bool} {l t r : List Char}
    (hl : l.dropWhile p = l) (ht : t ++ r = l) : t.dropWhile p = t := by
  cases t with
  | nil => rfl
  | cons c ct =>
    have hcl : l = c :: (ct ++ r) := by rw [← ht]; rfl
    by_cases h : p c
    · exfalso
      rw [hcl] at hl
      simp only [List.dropWhile, h] at hl
      have hlen := congrArg List.length hl
      have hle : ((ct ++ r).dropWhile p).length ≤ (ct ++ r).length :=
        dropWhile_length_le p (ct ++ r)
      simp only [List.length_cons] at hlen
      omega
    · simp [List.dropWhile, h]

/-- JavaScript `trim` is idempotent. -/
theorem jsTrim_idem (s : List Char) : jsTrim (jsTrim s) = jsTrim s := by
  have hu : (s.dropWhile isJsSpace).dropWhile isJsSpace = s.dropWhile isJsSpace :=
    dropWhile_idem isJsSpace s
  obtain ⟨r2, hr2⟩ := dropWhile_suffix_ex isJsSpace (s.dropWhile isJsSpace).reverse
  have hsplit :
      ((s.dropWhile isJsSpace).reverse.dropWhile isJsSpace).reverse ++ r2.reverse
        = s.dropWhile isJsSpace := by
    have := congrArg List.reverse hr2
    simpa using this
  have h1 : (jsTrim s).dropWhile isJsSpace = jsTrim s :=
    dropWhile_eq_self_of_prefix hu hsplit
  show ((((jsTrim s).dropWhile isJsSpace).reverse).dropWhile isJsSpace).reverse = jsTrim s
  rw [h1]
  have h2 : (jsTrim s).reverse = (s.dropWhile isJsSpace).reverse.dropWhile isJsSpace := by
    simp [jsTrim]
  rw [h2, dropWhile_idem, ← h2]
  simp

/-- The filtered text has no remaining occurrence. -/
theorem containsThink_removeThinkingTags (s : List Char) :
    containsThink (removeThinkingTags s) = false := by
  rw [removeThinkingTags]
  exact containsThink_jsTrim (containsThink_stripOpen (stripClosed s))

/-- The tag filter is idempotent. -/
theorem removeThinkingTags_idem (s : List Char) :
    removeThinkingTags (removeThinkingTags s) = removeThinkingTags s := by
  have hno := containsThink_removeThinkingTags s
  show jsTrim (stripOpen (stripClosed (removeThinkingTags s))) = removeThinkingTags s
  rw [stripClosed_of_no_think hno, stripOpen_of_no_think hno]
  show jsTrim (jsTrim (stripOpen (stripClosed s))) = removeThinkingTags s
  rw [jsTrim_idem]
  rfl

/-- A split always has at least one (possibly empty) part. -/
theorem splitOnNl_ne_nil (s : List Char) : splitOnNl s ≠ [] := by
  cases s with
  | nil => simp [splitOnNl]
  | cons c cs =>
    simp only [splitOnNl]
    by_cases h : c = '\n'
    · simp [h]
    · simp only [if_neg h]
      cases splitOnNl cs with
      | nil => simp
      | cons p ps => simp

/-- The last part of a concatenation with a non-empty right factor. -/
theorem lastPart_append (xs : List (List Char)) {ys : List (List Char)} (h : ys ≠ []) :
    lastPart (xs ++ ys) = lastPart ys := by
  induction xs with
  | nil => rfl
  | cons x xs ih =>
    cases xs with
    | nil =>
      cases ys with
      | nil => exact absurd rfl h
      | cons y ys => rfl
    | cons x2 xs2 => simpa using ih

/-- `dropLast` of a concatenation with a non-empty right factor. -/
theorem dropLast_append_ne (xs : List (List Char)) {ys : List (List Char)} (h : ys ≠ []) :
    (xs ++ ys).dropLast = xs ++ ys.dropLast := by
  induction xs with
  | nil => rfl
  | cons x xs ih =>
    cases hx : xs ++ ys with
    | nil =>
      cases ys with
      | nil => exact absurd rfl h
      | cons y ys => simp at hx
    | cons z zs =>
      show (x :: (xs ++ ys)).dropLast = x :: xs ++ ys.dropLast
      rw [hx, List.dropLast_cons₂, ← hx, ih]
      rfl


/-- Splitting after a leading newline. -/
theorem splitOnNl_cons_nl (cs : List Char) :
    splitOnNl ('\n' :: cs) = [] :: splitOnNl cs := by
  simp [splitOnNl]

/-- Splitting after a leading non-newline character. -/
theorem splitOnNl_cons_of_ne {c : Char} (hc : c ≠ '\n') {cs : List Char}
    {p : List Char} {ps : List (List Char)} (hS : splitOnNl cs = p :: ps) :
    splitOnNl (c :: cs) = (c :: p) :: ps := by
  simp [splitOnNl, hc, hS]

/-- Splitting a concatenation: the complete parts of the left factor, then
the split of its trailing fragment glued onto the right factor. -/
theorem splitOnNl_append (x y : List Char) :
    splitOnNl (x ++ y) = (splitOnNl x).dropLast ++ splitOnNl (lastPart (splitOnNl x) ++ y) := by
  induction x with
  | nil => simp [splitOnNl, lastPart]
  | cons c cs ih =>
    by_cases hc : c = '\n'
    · subst hc
      show splitOnNl ('\n' :: (cs ++ y)) = _
      rw [splitOnNl_cons_nl, splitOnNl_cons_nl, ih]
      cases hS : splitOnNl cs with
      | nil => exact absurd hS (splitOnNl_ne_nil cs)
      | cons p ps =>
        rw [List.dropLast_cons₂]
        show _ = ([] :: (p :: ps).dropLast) ++ splitOnNl (lastPart ([] :: p :: ps) ++ y)
        rw [show lastPart ([] :: p :: ps) = lastPart (p :: ps) from rfl]
        rfl
    · cases hS : splitOnNl cs with
      | nil => exact absurd hS (splitOnNl_ne_nil cs)
      | cons p ps =>
        rw [hS] at ih
        have hCcs : splitOnNl (c :: cs) = (c :: p) :: ps := splitOnNl_cons_of_ne hc hS
        cases ps with
        | nil =>
          have hIH : splitOnNl (cs ++ y) = splitOnNl (p ++ y) := by
            simpa [lastPart] using ih
          cases hT : splitOnNl (p ++ y) with
          | nil => exact absurd hT (splitOnNl_ne_nil _)
          | cons q qs =>
            have hL : splitOnNl ((c :: cs) ++ y) = (c :: q) :: qs := by
              rw [List.cons_append]
              exact splitOnNl_cons_of_ne hc (by rw [hIH, hT])
            rw [hL, hCcs]
            have hR : splitOnNl (lastPart [c :: p] ++ y) = (c :: q) :: qs := by
              rw [show lastPart [c :: p] = c :: p from rfl, List.cons_append]
              exact splitOnNl_cons_of_ne hc hT
            rw [hR]
            rfl
        | cons p2 ps2 =>
          have hIH : splitOnNl (cs ++ y)
              = p :: ((p2 :: ps2).dropLast ++ splitOnNl (lastPart (p2 :: ps2) ++ y)) := by
            rw [ih, List.dropLast_cons₂]
            rw [show lastPart (p :: p2 :: ps2) = lastPart (p2 :: ps2) from rfl]
            rfl
          have hL : splitOnNl ((c :: cs) ++ y)
              = (c :: p) :: ((p2 :: ps2).dropLast ++ splitOnNl (lastPart (p2 :: ps2) ++ y)) := by
            rw [List.cons_append]
            exact splitOnNl_cons_of_ne hc hIH
          rw [hL, hCcs, List.dropLast_cons₂]
          rw [show lastPart ((c :: p) :: p2 :: ps2) = lastPart (p2 :: ps2) from rfl]
          rfl

/-- The loop body never touches the buffer. -/
theorem processLine_buffer (parse : List Char → Option (List Char)) (st : StreamState)
    (l : List Char) : (processLine parse st l).buffer = st.buffer := by
  rw [processLine]
  by_cases h1 : dataMarker.isPrefixOf (jsTrim l)
  · simp only [h1, if_true]
    by_cases h2 : jsTrim ((jsTrim l).drop 6) = doneToken
    · simp [h2]
    · simp only [h2, if_false]
      cases parse ((jsTrim l).drop 6) with
      | some content =>
        by_cases h3 : content = []
        · simp [h3]
        · simp [h3]
      | none => simp
  · simp [h1]

/-- The loop never touches the buffer. -/
theorem processLines_buffer (parse : List Char → Option (List Char)) (st : StreamState)
    (ls : List (List Char)) : (processLines parse st ls).buffer = st.buffer := by
  induction ls generalizing st with
  | nil => rfl
  | cons l ls ih =>
    by_cases h : st.done
    · rw [processLines, if_pos h]
    · rw [processLines, if_neg h, ih, processLine_buffer]

/-- A returned state absorbs further lines. -/
theorem processLines_of_done (parse : List Char → Option (List Char)) {st : StreamState}
    (h : st.done = true) (ls : List (List Char)) : processLines parse st ls = st := by
  cases ls with
  | nil => rfl
  | cons l ls => rw [processLines, if_pos h]

/-- Processing a concatenation of line lists is sequential processing. -/
theorem processLines_append (parse : List Char → Option (List Char)) (st : StreamState)
    (l1 l2 : List (List Char)) :
    processLines parse st (l1 ++ l2) = processLines parse (processLines parse st l1) l2 := by
  induction l1 generalizing st with
  | nil => rfl
  | cons l ls ih =>
    by_cases h : st.done
    · rw [List.cons_append, processLines, if_pos h, processLines_of_done parse h,
        processLines_of_done parse h]
    · rw [List.cons_append, processLines, if_neg h, ih]
      rw [show processLines parse st (l :: ls) = processLines parse (processLine parse st l) ls by
        rw [processLines, if_neg h]]

/-- A returned state absorbs further windows. -/
theorem feed_of_done (parse : List Char → Option (List Char)) {st : StreamState}
    (h : st.done = true) (input : List Char) : feed parse st input = st := by
  rw [feed, if_pos h]

/-- The not-yet-returned unfolding of `feed`. -/
theorem feed_not_done (parse : List Char → Option (List Char)) {st : StreamState}
    (h : ¬ st.done = true) (input : List Char) :
    feed parse st input =
      if (processLines parse { st with buffer := [] }
            (splitOnNl (st.buffer ++ input)).dropLast).done then
        processLines parse { st with buffer := [] } (splitOnNl (st.buffer ++ input)).dropLast
      else
        { processLines parse { st with buffer := [] }
            (splitOnNl (st.buffer ++ input)).dropLast with
          buffer := lastPart (splitOnNl (st.buffer ++ input)) } := by
  rw [feed, if_neg h]

/-- Replacing the buffer of a state whose buffer is already that value is
the identity. -/
theorem setBuffer_self {st : StreamState} {b : List Char} (h : st.buffer = b) :
    { st with buffer := b } = st := by
  cases st
  simp_all

/-- Feeding two windows in sequence is feeding their concatenation: the
stream decoding loop is invariant under where the window boundary falls. -/
theorem feed_append (parse : List Char → Option (List Char)) (st : StreamState)
    (a b : List Char) : feed parse (feed parse st a) b = feed parse st (a ++ b) := by
  by_cases hd : st.done
  · rw [feed_of_done parse hd, feed_of_done parse hd, feed_of_done parse hd]
  · have hsplit : splitOnNl (st.buffer ++ (a ++ b))
        = (splitOnNl (st.buffer ++ a)).dropLast
          ++ splitOnNl (lastPart (splitOnNl (st.buffer ++ a)) ++ b) := by
      rw [← List.append_assoc, splitOnNl_append]
    cases hS : splitOnNl (st.buffer ++ a) with
    | nil => exact absurd hS (splitOnNl_ne_nil _)
    | cons p ps =>
      rw [hS] at hsplit
      cases hM : splitOnNl (lastPart (p :: ps) ++ b) with
      | nil => exact absurd hM (splitOnNl_ne_nil _)
      | cons q qs =>
        rw [hM] at hsplit
        set st1 := processLines parse { st with buffer := [] } (p :: ps).dropLast with hst1
        have hb1 : st1.buffer = [] := by
          rw [hst1, processLines_buffer]
        have hRHS : feed parse st (a ++ b)
            = if (processLines parse st1 (q :: qs).dropLast).done then
                processLines parse st1 (q :: qs).dropLast
              else
                { processLines parse st1 (q :: qs).dropLast with buffer := lastPart (q :: qs) } := by
          rw [feed_not_done parse hd (a ++ b), hsplit,
            dropLast_append_ne _ (by simp : (q :: qs) ≠ ([] : List (List Char))),
            processLines_append, ← hst1,
            lastPart_append _ (by simp : (q :: qs) ≠ ([] : List (List Char)))]
        have hfa : feed parse st a
            = if st1.done then st1 else { st1 with buffer := lastPart (p :: ps) } := by
          rw [feed_not_done parse hd a, hS, ← hst1]
        by_cases h1 : st1.done
        · rw [hRHS, hfa, if_pos h1, feed_of_done parse h1,
            processLines_of_done parse h1, if_pos h1]
        · rw [hRHS, hfa, if_neg h1]
          have hA : ¬ ({ st1 with buffer := lastPart (p :: ps) } : StreamState).done = true := h1
          rw [feed_not_done parse hA b]
          rw [show ({ st1 with buffer := lastPart (p :: ps) } : StreamState).buffer
            = lastPart (p :: ps) from rfl]
          rw [show ({ ({ st1 with buffer := lastPart (p :: ps) } : StreamState) with
              buffer := ([] : List Char) } : StreamState)
            = { st1 with buffer := [] } from rfl]
          rw [setBuffer_self hb1, hM]

/-- Folding the read loop over later windows continues one big feed. -/
theorem foldl_feed_eq_feed_join (parse : List Char → Option (List Char))
    (ws : List (List Char)) :
    ∀ (st : StreamState) (a : List Char),
      List.foldl (feed parse) (feed parse st a) ws = feed parse st (a ++ ws.flatten) := by
  induction ws with
  | nil =>
    intro st a
    simp [List.foldl]
  | cons w ws ih =>
    intro st a
    rw [List.foldl, feed_append parse st a w, ih st (a ++ w), List.flatten_cons,
      List.append_assoc]

/-- Feeding the empty window to the fresh state does nothing. -/
theorem feed_initState_nil (parse : List Char → Option (List Char)) :
    feed parse initState [] = initState := by
  rfl

/-- `streamResult` of a state equals the last emitted chunk argument (or the
empty text when no chunk was emitted), provided that held before and one
line is processed. -/
theorem processLine_result_last (parse : List Char → Option (List Char))
    (st : StreamState) (l : List Char)
    (h : streamResult st = st.chunks.getLastD []) :
    streamResult (processLine parse st l) = (processLine parse st l).chunks.getLastD [] := by
  rw [processLine]
  by_cases h1 : dataMarker.isPrefixOf (jsTrim l)
  · simp only [h1, if_true]
    by_cases h2 : jsTrim ((jsTrim l).drop 6) = doneToken
    · simpa [streamResult, h2] using h
    · simp only [h2, if_false]
      cases parse ((jsTrim l).drop 6) with
      | some content =>
        by_cases h3 : content = []
        · simpa [h3] using h
        · simp only [h3, if_false]
          simp [streamResult, List.getLastD_concat]
      | none => simpa using h
  · simpa [h1] using h

/-- The last-chunk relation is preserved by the line loop. -/
theorem processLines_result_last (parse : List Char → Option (List Char))
    (ls : List (List Char)) :
    ∀ (st : StreamState), streamResult st = st.chunks.getLastD [] →
      streamResult (processLines parse st ls) = (processLines parse st ls).chunks.getLastD [] := by
  induction ls with
  | nil => intro st h; exact h
  | cons l ls ih =>
    intro st h
    by_cases hd : st.done
    · rw [processLines, if_pos hd]; exact h
    · rw [processLines, if_neg hd]
      exact ih _ (processLine_result_last parse st l h)

/-- The last-chunk relation is preserved by a feed. -/
theorem feed_result_last (parse : List Char → Option (List Char)) (st : StreamState)
    (input : List Char) (h : streamResult st = st.chunks.getLastD []) :
    streamResult (feed parse st input) = (feed parse st input).chunks.getLastD [] := by
  by_cases hd : st.done
  · rw [feed_of_done parse hd]; exact h
  · rw [feed_not_done parse hd input]
    have hst : streamResult ({ st with buffer := [] } : StreamState)
        = ({ st with buffer := [] } : StreamState).chunks.getLastD [] := h
    have h1 := processLines_result_last parse (splitOnNl (st.buffer ++ input)).dropLast
      { st with buffer := [] } hst
    by_cases h2 : (processLines parse { st with buffer := [] }
        (splitOnNl (st.buffer ++ input)).dropLast).done
    · rw [if_pos h2]; exact h1
    · rw [if_neg h2]; exact h1

/-- The last-chunk relation holds after folding any window list over any
state in which it holds. -/
theorem foldl_feed_result_last (parse : List Char → Option (List Char))
    (ws : List (List Char)) :
    ∀ (st : StreamState), streamResult st = st.chunks.getLastD [] →
      streamResult (List.foldl (feed parse) st ws)
        = (List.foldl (feed parse) st ws).chunks.getLastD [] := by
  induction ws with
  | nil => intro st h; exact h
  | cons w ws ih =>
    intro st h
    exact ih (feed parse st w) (feed_result_last parse st w h)

/-- A sentinel line turns the state into the returned state. -/
theorem processLine_of_doneLine (parse : List Char → Option (List Char))
    (st : StreamState) {l : List Char} (hl : isDoneLine l = true) :
    processLine parse st l = { st with done := true } := by
  rw [isDoneLine, Bool.and_eq_true] at hl
  obtain ⟨h1, h2⟩ := hl
  rw [processLine]
  rw [if_pos (by exact h1), if_pos (of_decide_eq_true h2)]

/-- C1.  Stream decoding is invariant under chunk boundaries: feeding any
list of windows one by one through the read loop ends in exactly the same
state — same emitted `onChunk` arguments, same accumulator, same buffer and
same termination flag — as feeding their concatenation as a single window. -/
theorem stream_decode_window_invariance (parse : List Char → Option (List Char))
    (ws : List (List Char)) :
    List.foldl (feed parse) initState ws = feed parse initState ws.flatten := by
  cases ws with
  | nil => exact (feed_initState_nil parse).symm
  | cons w ws =>
    rw [List.flatten_cons, ← foldl_feed_eq_feed_join parse ws initState w]
    rfl

/-- C2.  The tag filter removes well-formed and trailing unterminated
`<think>` spans and trims, on the three specified examples, and it is
idempotent on every input. -/
theorem removeThinkingTags_spec :
    removeThinkingTags ("a<think>x</think>b".toList) = "ab".toList
    ∧ removeThinkingTags ("a<think>unterminated".toList) = "a".toList
    ∧ removeThinkingTags ("plain".toList) = "plain".toList
    ∧ ∀ x : List Char, removeThinkingTags (removeThinkingTags x) = removeThinkingTags x :=
  ⟨by decide, by decide, by decide, removeThinkingTags_idem⟩

/-- C3.  A line carrying exactly the `[DONE]` sentinel terminates decoding
immediately: the lines after it contribute no content deltas and no error,
the state is simply the pre-sentinel state marked returned, and the result
returned at that point is the filtered accumulated text. -/
theorem stream_sentinel_terminates (parse : List Char → Option (List Char))
    (st : StreamState) (ls rest : List (List Char)) (l : List Char)
    (hl : isDoneLine l = true)
    (hnd : (processLines parse st ls).done = false) :
    processLines parse st (ls ++ l :: rest) = { processLines parse st ls with done := true }
    ∧ streamResult (processLines parse st (ls ++ l :: rest))
        = removeThinkingTags (processLines parse st ls).full := by
  have he : processLines parse st (ls ++ l :: rest)
      = { processLines parse st ls with done := true } := by
    rw [processLines_append, processLines, if_neg (by rw [hnd]; exact Bool.false_ne_true),
      processLine_of_doneLine parse _ hl]
    exact processLines_of_done parse rfl rest
  exact ⟨he, by rw [he]; rfl⟩

/-- Witness for C3 at a concrete stream: one content line, the sentinel,
one ignored later line. -/
theorem stream_sentinel_terminates_witness :
    processLines (fun j => some j) initState
        (["data: a".toList] ++ "data: [DONE]".toList :: ["data: zz".toList])
      = { processLines (fun j => some j) initState ["data: a".toList] with done := true } :=
  (stream_sentinel_terminates (fun j => some j) initState ["data: a".toList]
    ["data: zz".toList] ("data: [DONE]".toList) (by decide) (by decide)).1

/-- C10.  When a send completes without invoking the error callback, the
returned string equals the argument of the last `onChunk` invocation, and it
is empty when `onChunk` was never invoked (`getLastD []` covers both). -/
theorem send_final_eq_last_chunk (parse : List Char → Option (List Char))
    (fr : FetchResult)
    (h : (sendMessageToCerebrasStream parse fr).errorCall = none) :
    (sendMessageToCerebrasStream parse fr).result
      = (sendMessageToCerebrasStream parse fr).chunks.getLastD [] := by
  cases fr with
  | networkFailure msg => exact absurd h (by simp [sendMessageToCerebrasStream])
  | httpError s d => exact absurd h (by simp [sendMessageToCerebrasStream])
  | ok ws =>
    show streamResult (List.foldl (feed parse) initState ws)
      = (List.foldl (feed parse) initState ws).chunks.getLastD []
    exact foldl_feed_result_last parse ws initState (by decide)
  | transportError ws msg =>
    by_cases hd : (List.foldl (feed parse) initState ws).done
    · have he : sendMessageToCerebrasStream parse (FetchResult.transportError ws msg)
          = ⟨(List.foldl (feed parse) initState ws).chunks, none,
              streamResult (List.foldl (feed parse) initState ws)⟩ := by
        show (if (List.foldl (feed parse) initState ws).done then _ else _) = _
        rw [if_pos hd]
      rw [he]
      exact foldl_feed_result_last parse ws initState (by decide)
    · have he : sendMessageToCerebrasStream parse (FetchResult.transportError ws msg)
          = ⟨(List.foldl (feed parse) initState ws).chunks, some (classifyError msg), []⟩ := by
        show (if (List.foldl (feed parse) initState ws).done then _ else _) = _
        rw [if_neg hd]
      rw [he] at h
      exact absurd h (by simp)

/-- Witness for C10 at a concrete successful stream with one chunk. -/
theorem send_final_eq_last_chunk_witness :
    (sendMessageToCerebrasStream (fun j => some j) (FetchResult.ok ["data: hi\n".toList])).result
      = (sendMessageToCerebrasStream (fun j => some j)
          (FetchResult.ok ["data: hi\n".toList])).chunks.getLastD [] :=
  send_final_eq_last_chunk (fun j => some j) (FetchResult.ok ["data: hi\n".toList]) (by decide)

/-- C4.  The outgoing payload is exactly one system message, then the
history in order with model mapped to assistant and every other role to
user, then one final user message; concretely, history `[model "hi"]` with
input `"there"` gives roles `[system, assistant, user]`. -/
theorem messagesPayload_roles (history : List Message) (userInput : List Char)
    (att : Option FileAttachment) :
    (messagesPayload history (buildRequestContent userInput att)).map CerebrasChatMessage.role
      = CRole.system ::
          (history.map (fun m =>
            if m.role = MessageRole.model then CRole.assistant else CRole.user) ++ [CRole.user])
    ∧ (messagesPayload [⟨0, MessageRole.model, "hi".toList, 0, none, false⟩]
          (buildRequestContent "there".toList none)).map CerebrasChatMessage.role
        = [CRole.system, CRole.assistant, CRole.user] := by
  constructor
  · simp [messagesPayload, transformMessagesForCerebras, List.map_map]
  · decide

/-- C5.  Every transport-level failure — rejected fetch, non-ok status, or
a mid-stream read error before the sentinel — is caught, reported through
the error callback with the classified message, and the call returns the
empty string; a 401 response in particular produces an error message that
mentions authorization (`авторизации`) and an empty result. -/
theorem send_failures_reported (parse : List Char → Option (List Char))
    (msg detail emsg : List Char) (status : Nat) (ws : List (List Char)) :
    ((sendMessageToCerebrasStream parse (FetchResult.networkFailure msg)).errorCall
        = some (classifyError msg)
      ∧ (sendMessageToCerebrasStream parse (FetchResult.networkFailure msg)).result = [])
    ∧ ((sendMessageToCerebrasStream parse (FetchResult.httpError status detail)).errorCall
        = some (classifyError (httpFailText status detail))
      ∧ (sendMessageToCerebrasStream parse (FetchResult.httpError status detail)).result = [])
    ∧ ((List.foldl (feed parse) initState ws).done = false →
        (sendMessageToCerebrasStream parse (FetchResult.transportError ws emsg)).errorCall
          = some (classifyError emsg)
        ∧ (sendMessageToCerebrasStream parse (FetchResult.transportError ws emsg)).result = [])
    ∧ (jsIncludes ((sendMessageToCerebrasStream parse
          (FetchResult.httpError 401 "Unauthorized".toList)).errorCall.getD [])
          ("авторизации".toList) = true
      ∧ (sendMessageToCerebrasStream parse
          (FetchResult.httpError 401 "Unauthorized".toList)).result = []) := by
  refine ⟨⟨rfl, rfl⟩, ⟨rfl, rfl⟩, ?_, ?_, ?_⟩
  · intro hnd
    have he : sendMessageToCerebrasStream parse (FetchResult.transportError ws emsg)
        = ⟨(List.foldl (feed parse) initState ws).chunks, some (classifyError emsg), []⟩ := by
      show (if (List.foldl (feed parse) initState ws).done then _ else _) = _
      rw [if_neg (by rw [hnd]; exact Bool.false_ne_true)]
    rw [he]
    exact ⟨rfl, rfl⟩
  · show jsIncludes ((some (classifyError (httpFailText 401 "Unauthorized".toList))).getD [])
        ("авторизации".toList) = true
    decide
  · rfl

/-- Witness for C5: a mid-stream failure on an empty prefix reports the
classified message and returns the empty string. -/
theorem send_failures_reported_witness :
    (sendMessageToCerebrasStream (fun _ => none)
        (FetchResult.transportError [] "boom".toList)).errorCall
      = some (classifyError "boom".toList)
    ∧ (sendMessageToCerebrasStream (fun _ => none)
        (FetchResult.transportError [] "boom".toList)).result = [] :=
  (send_failures_reported (fun _ => none) [] [] ("boom".toList) 0 []).2.2.1 (by decide)

/-- `findIndexJs` on a list whose first hit follows a miss-only prefix. -/
theorem findIndexJs_append_cons (p : ChatSession → Bool) (pre : List ChatSession)
    (d : ChatSession) (post : List ChatSession)
    (hpre : ∀ s ∈ pre, p s = false) (hd : p d = true) :
    findIndexJs p (pre ++ d :: post) = (pre.length : Int) := by
  induction pre with
  | nil => simp [findIndexJs, hd]
  | cons s ss ih =>
    have hs : p s = false := hpre s (by simp)
    have hss : ∀ x ∈ ss, p x = false := fun x hx => hpre x (by simp [hx])
    rw [List.cons_append, findIndexJs, hs]
    simp only [Bool.false_eq_true, if_false]
    rw [ih hss]
    rw [if_neg (by omega : ((ss.length : Int)) ≠ -1)]
    simp only [List.length_cons]
    push_cast
    ring

/-- Looking a concatenation up right after its left factor. -/
theorem get?_append_length (xs : List ChatSession) (y : ChatSession) (zs : List ChatSession) :
    (xs ++ y :: zs).get? xs.length = some y := by
  induction xs with
  | nil => rfl
  | cons x xs ih => simpa using ih

/-- Filtering out an id that occurs nowhere changes nothing. -/
theorem filter_ne_id (l : List ChatSession) (idv : Nat) (h : ∀ s ∈ l, s.id ≠ idv) :
    l.filter (fun s => s.id != idv) = l := by
  induction l with
  | nil => rfl
  | cons s ss ih =>
    have hs : (s.id != idv) = true := by
      simp [bne_iff_ne]
      exact h s (by simp)
    rw [List.filter_cons, if_pos hs, ih (fun x hx => h x (by simp [hx]))]

/-- C7.  Deleting the sole session auto-creates a fresh active session with
an empty message list and the default title; when others remain and the
deleted session was active, the replacement is the session immediately
before it in the prior order, else the one immediately after it. -/
theorem deleteSession_spec :
    (∀ (s : ChatSession) (em : Option (List Char)) (freshId now : Nat),
      deleteSession ⟨[s], some s.id, em⟩ s.id freshId now
        = ⟨[⟨freshId, "Новый чат 2".toList, [], now⟩], some freshId, none⟩)
    ∧ (∀ (pre : List ChatSession) (plast d : ChatSession) (post : List ChatSession)
        (em : Option (List Char)) (freshId now : Nat),
        (∀ s ∈ pre ++ [plast], s.id ≠ d.id) → (∀ s ∈ post, s.id ≠ d.id) →
        (deleteSession ⟨pre ++ plast :: d :: post, some d.id, em⟩ d.id freshId now).sessions
            = pre ++ plast :: post
          ∧ (deleteSession ⟨pre ++ plast :: d :: post, some d.id, em⟩
              d.id freshId now).activeSessionId = some plast.id)
    ∧ (∀ (d post1 : ChatSession) (post : List ChatSession)
        (em : Option (List Char)) (freshId now : Nat),
        (∀ s ∈ post1 :: post, s.id ≠ d.id) →
        (deleteSession ⟨d :: post1 :: post, some d.id, em⟩ d.id freshId now).sessions
            = post1 :: post
          ∧ (deleteSession ⟨d :: post1 :: post, some d.id, em⟩
              d.id freshId now).activeSessionId = some post1.id) := by
  refine ⟨?_, ?_, ?_⟩
  · intro s em freshId now
    have h1 : ([s] : List ChatSession).filter (fun x => x.id != s.id) = [] := by
      simp [List.filter_cons]
    simp only [deleteSession, h1]
    simp [createNewSession]
    decide
  · intro pre plast d post em freshId now hpre hpost
    have hfil : (pre ++ plast :: d :: post).filter (fun s => s.id != d.id)
        = pre ++ plast :: post := by
      rw [List.filter_append, List.filter_cons, List.filter_cons]
      rw [if_pos (by simp [bne_iff_ne]; exact hpre plast (by simp))]
      rw [if_neg (by simp)]
      rw [filter_ne_id pre d.id (fun s hs => hpre s (by simp [hs])),
        filter_ne_id post d.id hpost]
    have hL : pre ++ plast :: d :: post = (pre ++ [plast]) ++ d :: post := by simp
    have hfind : findIndexJs (fun s => s.id == d.id) (pre ++ plast :: d :: post)
        = ((pre.length + 1 : Nat) : Int) := by
      rw [hL, findIndexJs_append_cons _ _ _ _
        (fun s hs => by simp [beq_eq_false_iff_ne]; exact hpre s hs)
        (by simp)]
      simp
    have hact : newActiveAfterDelete (pre ++ plast :: d :: post) d.id (pre ++ plast :: post)
        = some plast.id := by
      rw [newActiveAfterDelete]
      rw [hfind]
      rw [if_pos (by omega : (0 : Int) < ((pre.length + 1 : Nat) : Int))]
      have htn : (((pre.length + 1 : Nat) : Int) - 1).toNat = pre.length := by omega
      rw [htn, get?_append_length]
    have hne : 0 < (pre ++ plast :: post).length := by simp
    simp only [deleteSession, hfil, if_true]
    rw [if_pos hne, hact]
    exact ⟨rfl, rfl⟩
  · intro d post1 post em freshId now hpost
    have hfil : (d :: post1 :: post).filter (fun s => s.id != d.id) = post1 :: post := by
      rw [List.filter_cons, if_neg (by simp)]
      exact filter_ne_id _ d.id hpost
    have hfind : findIndexJs (fun s => s.id == d.id) (d :: post1 :: post) = 0 := by
      rw [findIndexJs]
      simp
    have hact : newActiveAfterDelete (d :: post1 :: post) d.id (post1 :: post)
        = some post1.id := by
      rw [newActiveAfterDelete, hfind]
      rw [if_neg (by omega : ¬ (0 : Int) < 0)]
      rfl
    have hne : 0 < (post1 :: post).length := by simp
    simp only [deleteSession, hfil, if_true]
    rw [if_pos hne, hact]
    exact ⟨rfl, rfl⟩

/-- Witness for C7: deleting the active middle session of three makes the
preceding session active. -/
theorem deleteSession_spec_witness :
    (deleteSession ⟨[⟨1, "a".toList, [], 0⟩, ⟨2, "b".toList, [], 0⟩, ⟨3, "c".toList, [], 0⟩],
        some 2, none⟩ 2 9 5).activeSessionId = some 1 :=
  (deleteSession_spec.2.1 [] ⟨1, "a".toList, [], 0⟩ ⟨2, "b".toList, [], 0⟩
    [⟨3, "c".toList, [], 0⟩] none 9 5 (by decide) (by decide)).2

/-- C6 evidence.  The history snapshot logic slices the stale pre-append
message list, so for a session whose prior messages are a user/model
exchange the history sent to the completion client drops the last prior
message (the previous assistant reply) instead of merely excluding the
just-added placeholder. -/
theorem historyForApi_drops_last_prior :
    historyForApi [⟨1, MessageRole.user, "a".toList, 0, none, false⟩,
        ⟨2, MessageRole.model, "b".toList, 1, none, false⟩]
      = [⟨1, MessageRole.user, "a".toList, 0, none, false⟩]
    ∧ historyForApi [⟨1, MessageRole.user, "a".toList, 0, none, false⟩,
          ⟨2, MessageRole.model, "b".toList, 1, none, false⟩]
        ≠ [⟨1, MessageRole.user, "a".toList, 0, none, false⟩,
            ⟨2, MessageRole.model, "b".toList, 1, none, false⟩] := by
  decide

/-- C8 counterexample.  Switching to an id that matches no session is not a
no-op: the active session id changes to the unknown id. -/
theorem switchSession_not_noop :
    (∀ s ∈ ([⟨1, "t".toList, [], 0⟩] : List ChatSession), s.id ≠ 2)
    ∧ (switchSession ⟨[⟨1, "t".toList, [], 0⟩], some 1, none⟩ 2).activeSessionId
        ≠ (⟨[⟨1, "t".toList, [], 0⟩], some 1, none⟩ : AppState).activeSessionId := by
  decide

/-- C8 amended.  `switchSession` performs no existence check: it always
leaves the session list unchanged and sets the active session id to the
requested id, known or not. -/
theorem switchSession_sets_requested_id (st : AppState) (sessionId : Nat) :
    (switchSession st sessionId).sessions = st.sessions
    ∧ (switchSession st sessionId).activeSessionId = some sessionId := by
  constructor
  · show (match st.errorMessage with
      | some m => if jsIncludes m ("API".toList) then { st with errorMessage := none } else st
      | none => st).sessions = st.sessions
    cases st.errorMessage with
    | none => rfl
    | some m =>
      split
      · split
        · rfl
        · rfl
      · rfl
  · rfl


/-- C9 evidence.  After the second send completes the session holds four
messages — it is past its first exchange — yet the finally-block rename,
keyed on the stale two-message snapshot, still overwrites the title with the
new user text. -/
theorem autoRename_past_first_exchange :
    samplePostSendState.sessions.map (fun s => s.messages.length) = [4]
    ∧ (autoRenameAfterSend [sampleStaleSession] 1 "b".toList samplePostSendState).sessions.map
        (fun s => s.title) = ["b".toList] := by
  decide
